import Mathlib

/-!
Verification of the pigame digit-matching engine.

This file gives a shallow embedding, in Lean 4, of the core logic of the
pigame repository (two C source files) and proves properties of that
embedding.  C strings are modelled as `List Char` (a C string cannot
contain the NUL character, and all inputs of interest are ASCII).  The
mature implementation `src/src/c/pigame.c` is embedded in namespace
`Pigame`; the older, simpler variant `src/pigame.c` is embedded in
namespace `PigameLegacy` where its behaviour differs.

The file is organised with all definitions first, followed by all
theorems.
-/

namespace Pigame

/-- `MAX_LENGTH` from src/src/c/pigame.c line 11. -/
def MAX_LENGTH : Nat := 5001

/-- C `isdigit` restricted to ASCII: the character is between '0' and '9'. -/
def isdigitC (c : Char) : Bool := decide ('0' ≤ c) && decide (c ≤ '9')

/-- C `isspace` for the default locale: space, tab, newline, vertical tab,
form feed, carriage return. -/
def isspaceC (c : Char) : Bool :=
  c = ' ' || c = '\t' || c = '\n' || c = '\x0B' || c = '\x0C' || c = '\r'

/-- The scanning loop of `input_validation` (src/src/c/pigame.c lines 51-58):
walks the string keeping a running count of '.' characters, returns false at
the first character that is neither a digit nor '.', and at the end of the
string checks that at most one '.' was seen. -/
def countDotsValid : List Char → Nat → Bool
  | [], dotCount => decide (dotCount ≤ 1)
  | c :: rest, dotCount =>
    if c = '.' then countDotsValid rest (dotCount + 1)
    else if isdigitC c then countDotsValid rest dotCount
    else false

/-- `input_validation` from src/src/c/pigame.c lines 44-59: rejects the
empty string, then runs the scanning loop starting with zero dots seen. -/
def input_validation (s : List Char) : Bool :=
  if s.length = 0 then false else countDotsValid s 0

/-- The easter-egg test in `main` (src/src/c/pigame.c lines 317-319): the
literal tokens that bypass validation and comparison. -/
def isEasterEgg (s : List Char) : Bool :=
  s = "Archimedes".data || s = "pi".data || s = "PI".data

/-- The implicit length derivation in `main` (src/src/c/pigame.c lines
331-333): `length = strlen(your_pi) - 2; if (length < 1) length = 1;`.
The `size_t` subtraction followed by conversion to `int` is modelled as
exact integer arithmetic, which yields the same clamped result. -/
def resolve_from_input (s : List Char) : Int :=
  let length : Int := (s.length : Int) - 2
  if length < 1 then 1 else length

/-- The loop of `format_pi_with_spaces` (src/src/c/pigame.c lines 230-236):
starting at index `i` of the original string, emit a space before the
current character whenever `i > 2` and `(i - 2) % 5 == 0`, then the
character itself. -/
def formatAux : Nat → List Char → List Char
  | _, [] => []
  | i, c :: rest =>
    (if 2 < i ∧ (i - 2) % 5 = 0 then [' '] else []) ++ c :: formatAux (i + 1) rest

/-- `format_pi_with_spaces` from src/src/c/pigame.c lines 213-240: copies
the first two characters ("3.") unchanged, then runs the spacing loop from
index 2. -/
def format_pi_with_spaces (s : List Char) : List Char :=
  s.take 2 ++ formatAux 2 (s.drop 2)

/-- Splits a list into consecutive blocks of five characters (the last
block may be shorter). -/
def chunks5 : List Char → List (List Char)
  | [] => []
  | a :: t => (a :: t).take 5 :: chunks5 ((a :: t).drop 5)
  termination_by l => l.length
  decreasing_by simp; omega

/-- Joins blocks with a single space between consecutive blocks. -/
def groupedWithSpaces : List (List Char) → List Char
  | [] => []
  | [b] => b
  | b :: bs => b ++ ' ' :: groupedWithSpaces bs

/-- The ASCII escape character 0x1B that starts every ANSI escape
sequence printed by the differ. -/
def ESC : Char := Char.ofNat 27

/-- The bytes of the ANSI sequence "\033[0;31m" (switch to red). -/
def redOn : List Char := [ESC, '[', '0', ';', '3', '1', 'm']

/-- The bytes of the ANSI sequence "\033[0m" (reset attributes). -/
def colorOff : List Char := [ESC, '[', '0', 'm']

/-- The bytes of the ANSI sequence "\033[4m" (underline on). -/
def underlineOn : List Char := [ESC, '[', '4', 'm']

/-- How `color_your_pi` marks a mismatched character (src/src/c/pigame.c
lines 257-261): underline markup in colorblind mode, red markup
otherwise. -/
def mark (colorblind : Bool) (c : Char) : List Char :=
  if colorblind then underlineOn ++ c :: colorOff else redOn ++ c :: colorOff

/-- The loop of `color_your_pi` (src/src/c/pigame.c lines 247-263), with
the emitted bytes collected into a list instead of printed: at index `i`
a space is emitted first when `i > 1` and `(i - 2) % 5 == 0`; then the
candidate character is emitted unmarked when `i` is in range of the
reference and the characters agree, and marked (counting one error)
otherwise.  Returns the emitted bytes and the error count. -/
def color_your_pi_aux (pi : List Char) (colorblind : Bool) : Nat → List Char → List Char × Nat
  | _, [] => ([], 0)
  | i, c :: rest =>
    let r := color_your_pi_aux pi colorblind (i + 1) rest
    let sp : List Char := if 1 < i ∧ (i - 2) % 5 = 0 then [' '] else []
    match pi[i]? with
    | some p =>
      if c = p then (sp ++ c :: r.1, r.2)
      else (sp ++ mark colorblind c ++ r.1, r.2 + 1)
    | none => (sp ++ mark colorblind c ++ r.1, r.2 + 1)

/-- `color_your_pi` from src/src/c/pigame.c lines 243-269 (the rendering
and counting part; the final newline and the verbose error report are
plumbing). -/
def color_your_pi (your_pi pi : List Char) (colorblind : Bool) : List Char × Nat :=
  color_your_pi_aux pi colorblind 0 your_pi

/-- C `strcmp`, on NUL-free strings modelled as lists: walk both strings
in lockstep and return the (signed) difference of the first disagreeing
character pair, where running off one end compares against the NUL
terminator (byte value 0). -/
def strcmp : List Char → List Char → Int
  | [], [] => 0
  | [], b :: _ => -(b.toNat : Int)
  | a :: _, [] => (a.toNat : Int)
  | a :: as, b :: bs => if a = b then strcmp as bs else (a.toNat : Int) - (b.toNat : Int)

/-- The verdict messages printed by `main` (src/src/c/pigame.c lines
343-360), as an enumeration: "Perfect!", "Well done.", "You can do
better!", "Match", "No match". -/
inductive Verdict
  | Perfect
  | WellDone
  | CanDoBetter
  | Match
  | NoMatch
  deriving DecidableEq

/-- The verdict selection of `main` (src/src/c/pigame.c lines 343-360):
in verbose mode `strcmp(pi, your_pi) == 0` selects "Well done." when
`length < 15` and "Perfect!" otherwise, inequality selects "You can do
better!"; in terse mode equality selects "Match", inequality "No
match". -/
def classify (verbose : Bool) (pi your_pi : List Char) (length : Int) : Verdict :=
  if verbose then
    if strcmp pi your_pi = 0 then
      (if length < 15 then .WellDone else .Perfect)
    else .CanDoBetter
  else
    if strcmp pi your_pi = 0 then .Match else .NoMatch

/-- The hardcoded digit table `pi_digits` of `calc_pi`
(src/src/c/pigame.c line 102): the first 15 decimal digits of π. -/
def pi_digits : List Char := "141592653589793".data

/-- `calc_pi` from src/src/c/pigame.c lines 93-210.  For `length <= 15`
the function copies "3." and appends the first `length` characters of the
fixed table `pi_digits` (lines 95-106).  For larger lengths the C function
computes digits at runtime with the Chudnovsky algorithm on GMP
arbitrary-precision floats (lines 108-209); that numerical floating-point
path is outside this embedding and is represented by `none`. -/
def calc_pi (length : Nat) : Option (List Char) :=
  if length ≤ 15 then some ("3.".data ++ pi_digits.take length) else none

/-- The accumulation loop of C `strtol` in base 10: `value = value * 10 +
digit` over a run of ASCII digits. -/
def digitsVal (ds : List Char) : Nat :=
  ds.foldl (fun a c => a * 10 + (c.toNat - 48)) 0

/-- Phase one of C `strtol`: skip leading whitespace. -/
def strtolSkipWs (s : List Char) : List Char := s.dropWhile isspaceC

/-- Phase two of C `strtol`: is the (whitespace-stripped) input negated? -/
def strtolNeg (r : List Char) : Bool := r.headD ' ' = '-'

/-- Phase two of C `strtol`: consume one optional sign character. -/
def strtolAfterSign (r : List Char) : List Char :=
  if r.headD ' ' = '-' ∨ r.headD ' ' = '+' then r.tail else r

/-- C `strtol(s, &endptr, 10)`: skip leading whitespace, consume an
optional single sign, then a maximal run of ASCII digits; return the
signed value together with the remainder of the string at `endptr`.
When no digits are consumed the value is 0 and `endptr` is reset to the
start of the input.  Overflow clamping to LONG_MAX / LONG_MIN is not
modelled: `length_validation` only compares the value against 0 and
MAX_LENGTH, and clamping never changes the outcome of those
comparisons. -/
def strtol10 (s : List Char) : Int × List Char :=
  if ((strtolAfterSign (strtolSkipWs s)).takeWhile isdigitC).isEmpty then (0, s)
  else
    ((if strtolNeg (strtolSkipWs s) then
        -(digitsVal ((strtolAfterSign (strtolSkipWs s)).takeWhile isdigitC) : Int)
      else
        (digitsVal ((strtolAfterSign (strtolSkipWs s)).takeWhile isdigitC) : Int)),
     (strtolAfterSign (strtolSkipWs s)).dropWhile isdigitC)

/-- `length_validation` from src/src/c/pigame.c lines 61-71: parse with
`strtol` in base 10; fail with -1 when the parse did not consume the whole
string, or the value is non-positive, or the value exceeds
`MAX_LENGTH`. -/
def length_validation (s : List Char) : Int :=
  let p := strtol10 s
  if p.2 ≠ [] ∨ p.1 ≤ 0 ∨ (MAX_LENGTH : Int) < p.1 then -1 else p.1

/-- The claim's notion of a pure base-10 integer literal: an optional
single sign followed by a non-empty run of ASCII digits, and nothing
else. -/
def pureIntLiteral (s : List Char) : Bool :=
  match s with
  | '+' :: t => !t.isEmpty && t.all isdigitC
  | '-' :: t => !t.isEmpty && t.all isdigitC
  | _ => !s.isEmpty && s.all isdigitC

/-- The signed value of a decomposed literal: sign times the digit-run
value. -/
def litVal (sgn ds : List Char) : Int :=
  (if sgn = ['-'] then -1 else 1) * (digitsVal ds : Int)

/-- Which of the two standard output streams a terminating message goes
to. -/
inductive OutStream
  | stdout
  | stderr
  deriving DecidableEq

/-- The observable effect of a process-terminating path: the stream the
final message is printed to and the exit code. -/
structure ExitSpec where
  stream : OutStream
  code : Nat
  deriving DecidableEq

/-- `usage` from src/src/c/pigame.c lines 34-42: prints the usage text
with `fprintf(stderr, ...)` and calls `exit(1)`. -/
def usage : ExitSpec := ⟨OutStream.stderr, 1⟩

/-- The option characters accepted by the `getopt(argc, argv, "vp:Vc")`
loop in `main` (src/src/c/pigame.c line 278): `v`, `p` (which takes an
argument), `V` and `c`.  There is no `h`. -/
def optstringChars : List Char := ['v', 'p', 'V', 'c']

/-- `getopt` applied to the flag `-x`: it yields `x` when `x` occurs in
the option string and `'?'` otherwise. -/
def getopt_result (c : Char) : Char :=
  if c ∈ optstringChars then c else '?'

/-- The `switch (opt)` dispatch of `main` (src/src/c/pigame.c lines
278-311), restricted to its process-terminating outcome: `none` means the
option is recorded and the loop continues ('v' and 'c' set flags; 'p'
goes on to validate and print, an outcome that depends on its argument
and is not needed for the help-flag claim), `some e` means the process
terminates with effect `e` ('V' prints the version to standard output and
returns 0; every other value, in particular `getopt`'s `'?'` for an
unrecognized flag, reaches `default:` which calls `usage`). -/
def switch_dispatch (c : Char) : Option ExitSpec :=
  if c = 'v' then none
  else if c = 'p' then none
  else if c = 'V' then some ⟨OutStream.stdout, 0⟩
  else if c = 'c' then none
  else some usage

end Pigame

namespace PigameLegacy

/-- `calc_pi` from src/pigame.c lines 45-49: the legacy variant ignores
its argument and always returns (a copy of) the fixed 17-character string
"3.141592653589793". -/
def calc_pi (_length : Int) : List Char := "3.141592653589793".data

end PigameLegacy

namespace Pigame

/-- Characterisation of the validation loop: it succeeds iff every
character is a digit or a dot and the dots seen so far plus the dots in the
remainder number at most one. -/
theorem countDotsValid_iff (l : List Char) (dotCount : Nat) :
    countDotsValid l dotCount = true ↔
      ((∀ c ∈ l, isdigitC c = true ∨ c = '.') ∧ dotCount + l.count '.' ≤ 1) := by
  induction l generalizing dotCount with
  | nil => simp [countDotsValid]
  | cons c rest ih =>
    by_cases hdot : c = '.'
    · subst hdot
      have step : countDotsValid ('.' :: rest) dotCount = countDotsValid rest (dotCount + 1) := by
        simp [countDotsValid]
      rw [step, ih]
      simp only [List.mem_cons, List.count_cons_self]
      constructor
      · rintro ⟨h1, h2⟩
        refine ⟨fun x hx => ?_, by omega⟩
        rcases hx with hx | hx
        · exact Or.inr hx
        · exact h1 x hx
      · rintro ⟨h1, h2⟩
        exact ⟨fun x hx => h1 x (Or.inr hx), by omega⟩
    · by_cases hdig : isdigitC c = true
      · have step : countDotsValid (c :: rest) dotCount = countDotsValid rest dotCount := by
          simp [countDotsValid, hdot, hdig]
        rw [step, ih]
        simp only [List.mem_cons, List.count_cons_of_ne (fun h => hdot h.symm)]
        constructor
        · rintro ⟨h1, h2⟩
          refine ⟨fun x hx => ?_, h2⟩
          rcases hx with hx | hx
          · subst hx; exact Or.inl hdig
          · exact h1 x hx
        · rintro ⟨h1, h2⟩
          exact ⟨fun x hx => h1 x (Or.inr hx), h2⟩
      · have step : countDotsValid (c :: rest) dotCount = false := by
          simp [countDotsValid, hdot, hdig]
        rw [step]
        simp only [Bool.false_eq_true, false_iff, not_and]
        intro h1
        rcases h1 c (List.mem_cons_self c rest) with h | h
        · exact absurd h hdig
        · exact absurd h hdot

/-- Claim C2: `input_validation` returns false for the empty string, for
every string containing a character that is neither an ASCII digit nor '.',
and for every string containing two or more '.' characters; it returns true
for every non-empty string over digits and '.' containing at most one '.'. -/
theorem input_validation_spec (s : List Char) :
    input_validation s = true ↔
      (s ≠ [] ∧ (∀ c ∈ s, isdigitC c = true ∨ c = '.') ∧ s.count '.' ≤ 1) := by
  by_cases hs : s = []
  · subst hs; simp [input_validation]
  · have hlen : s.length ≠ 0 := fun h => hs (List.length_eq_zero.mp h)
    simp only [input_validation, if_neg hlen, countDotsValid_iff, Nat.zero_add]
    tauto

/-- Claim C8: on the implicit path the derived comparison length is the
character count minus 2, clamped to a minimum of 1, and no upper clamp at
`MAX_LENGTH` is applied: arbitrarily long inputs yield derived lengths
above 5001. -/
theorem resolve_from_input_spec :
    (∀ s : List Char, resolve_from_input s = max 1 ((s.length : Int) - 2)) ∧
    (∀ n : Nat, (MAX_LENGTH : Int) < resolve_from_input (List.replicate (n + 5004) '1')) := by
  constructor
  · intro s
    simp only [resolve_from_input]
    split <;> omega
  · intro n
    simp only [resolve_from_input, List.length_replicate, MAX_LENGTH]
    split <;> push_cast <;> omega

/-- Claim C10: the string "." (one dot, no digits) passes
`input_validation`, is not intercepted by the easter egg, and the derived
comparison length for it is clamped to 1; validation requires neither a
digit nor the "3." prefix. -/
theorem dot_input_accepted :
    input_validation ['.'] = true ∧
    isEasterEgg ['.'] = false ∧
    resolve_from_input ['.'] = 1 ∧
    (∀ c ∈ ['.'], isdigitC c = false) ∧
    ['.'].take 2 ≠ ['3', '.'] := by
  refine ⟨by decide, by decide, ?_, by decide, by decide⟩
  decide

/-- The spacing loop only depends on the loop index modulo 5 (once past the
"3." prefix). -/
theorem formatAux_shift (l : List Char) : ∀ i : Nat, 2 < i → formatAux (i + 5) l = formatAux i l := by
  induction l with
  | nil => intro i hi; rfl
  | cons c t ih =>
    intro i hi
    have hc : (2 < i + 5 ∧ (i + 5 - 2) % 5 = 0) ↔ (2 < i ∧ (i - 2) % 5 = 0) := by
      have h1 : i + 5 - 2 = (i - 2) + 5 := by omega
      rw [h1, Nat.add_mod_right]
      constructor
      · rintro ⟨_, h⟩; exact ⟨hi, h⟩
      · rintro ⟨_, h⟩; exact ⟨by omega, h⟩
    have h6 : i + 5 + 1 = i + 1 + 5 := by omega
    simp only [formatAux]
    rw [h6, ih (i + 1) (by omega), if_congr hc rfl rfl]

/-- Restarting the spacing loop at index 7 first emits one block
separator, then behaves like the loop at index 2. -/
theorem formatAux_seven (l : List Char) :
    formatAux 7 l = if l = [] then [] else ' ' :: formatAux 2 l := by
  cases l with
  | nil => rfl
  | cons c t =>
    have h1 : formatAux 7 (c :: t) = ' ' :: c :: formatAux 8 t := by
      norm_num [formatAux]
    have h2 : formatAux 2 (c :: t) = c :: formatAux 3 t := by
      norm_num [formatAux]
    have h3 : formatAux 8 t = formatAux 3 t := formatAux_shift t 3 (by omega)
    simp [h1, h2, h3]

/-- Unfolding lemma: `chunks5` of the empty list. -/
theorem chunks5_nil : chunks5 [] = [] := by
  unfold chunks5
  rfl

/-- Unfolding lemma: `chunks5` of a non-empty list takes one block of five
and recurses on the remainder. -/
theorem chunks5_cons (a : Char) (t : List Char) :
    chunks5 (a :: t) = (a :: t).take 5 :: chunks5 ((a :: t).drop 5) := by
  rw [chunks5.eq_def]

/-- The spacing loop started at index 2 groups its input into blocks of
five separated by single spaces, and its output length is the input length
plus one separator per complete block that is followed by more input. -/
theorem formatAux_two_spec (l : List Char) :
    formatAux 2 l = groupedWithSpaces (chunks5 l) ∧
    (formatAux 2 l).length = l.length + (l.length - 1) / 5 := by
  generalize hn : l.length = n
  induction n using Nat.strong_induction_on generalizing l with
  | _ n ih =>
    match l with
    | [] =>
      subst hn
      simp [formatAux, chunks5_nil, groupedWithSpaces]
    | [a] =>
      subst hn
      rw [chunks5_cons]
      norm_num [formatAux, chunks5_nil, groupedWithSpaces]
    | [a, b] =>
      subst hn
      rw [chunks5_cons]
      norm_num [formatAux, chunks5_nil, groupedWithSpaces]
    | [a, b, c] =>
      subst hn
      rw [chunks5_cons]
      norm_num [formatAux, chunks5_nil, groupedWithSpaces]
    | [a, b, c, d] =>
      subst hn
      rw [chunks5_cons]
      norm_num [formatAux, chunks5_nil, groupedWithSpaces]
    | a :: b :: c :: d :: e :: rest =>
      subst hn
      have hstep : formatAux 2 (a :: b :: c :: d :: e :: rest) =
          a :: b :: c :: d :: e :: formatAux 7 rest := by
        norm_num [formatAux]
      have hchunks : chunks5 (a :: b :: c :: d :: e :: rest) =
          [a, b, c, d, e] :: chunks5 rest := by
        rw [chunks5_cons]
        rfl
      cases rest with
      | nil =>
        rw [hstep, formatAux_seven, hchunks, chunks5_nil]
        norm_num [groupedWithSpaces]
      | cons r0 rs =>
        have hlt : (r0 :: rs).length < (a :: b :: c :: d :: e :: r0 :: rs).length := by
          simp only [List.length_cons]; omega
        have ihr := ih (r0 :: rs).length hlt (r0 :: rs) rfl
        have hgr : groupedWithSpaces ([a, b, c, d, e] :: chunks5 (r0 :: rs)) =
            [a, b, c, d, e] ++ ' ' :: groupedWithSpaces (chunks5 (r0 :: rs)) := by
          rw [chunks5_cons]
          rfl
        constructor
        · rw [hstep, formatAux_seven, hchunks, hgr, if_neg (by simp)]
          simp [ihr.1]
        · rw [hstep, formatAux_seven, if_neg (by simp)]
          have hlen := ihr.2
          simp only [List.length_cons] at hlen ⊢
          rw [show rs.length + 1 + 1 + 1 + 1 + 1 + 1 - 1 = rs.length + 1 - 1 + 5 by omega,
            Nat.add_div_right _ (by omega : 0 < 5)]
          omega

/-- Claim C6 (amended): the formatter preserves the first two characters,
groups the remaining characters into blocks of five separated by single
spaces, and for input length `L >= 2` the output length is
`L + (L - 3) / 5` (the spec's stated formula `L + (L - 2) / 5` counts one
separator too many whenever the fractional part is a nonzero multiple
of 5). -/
theorem format_pi_with_spaces_spec (s : List Char) (h : 2 ≤ s.length) :
    (format_pi_with_spaces s).take 2 = s.take 2 ∧
    format_pi_with_spaces s = s.take 2 ++ groupedWithSpaces (chunks5 (s.drop 2)) ∧
    (format_pi_with_spaces s).length = s.length + (s.length - 3) / 5 := by
  cases s with
  | nil => norm_num at h
  | cons x s1 =>
    cases s1 with
    | nil => norm_num at h
    | cons y t =>
      have hspec := formatAux_two_spec t
      have heq : format_pi_with_spaces (x :: y :: t) = x :: y :: formatAux 2 t := rfl
      refine ⟨?_, ?_, ?_⟩
      · rw [heq]; rfl
      · rw [heq, hspec.1]; rfl
      · rw [heq]
        simp only [List.length_cons, hspec.2]
        rw [show t.length + 1 + 1 - 3 = t.length - 1 by omega]
        omega

/-- Witness for claim C6: the amended statement evaluated on the reference
string with 16 decimals. -/
theorem format_pi_with_spaces_spec_witness :
    (format_pi_with_spaces "3.1415926535897932".data).take 2 = "3.1415926535897932".data.take 2 ∧
    format_pi_with_spaces "3.1415926535897932".data =
      "3.1415926535897932".data.take 2 ++
        groupedWithSpaces (chunks5 ("3.1415926535897932".data.drop 2)) ∧
    (format_pi_with_spaces "3.1415926535897932".data).length =
      "3.1415926535897932".data.length + ("3.1415926535897932".data.length - 3) / 5 :=
  format_pi_with_spaces_spec "3.1415926535897932".data (by decide)

/-- Counterexample for claim C6 as stated: on the 7-character input
"3.14159" the formatter emits no space, so the output length is 7, not
`7 + (7 - 2) / 5 = 8` as the claimed formula requires. -/
theorem format_length_counterexample :
    (format_pi_with_spaces "3.14159".data).length ≠
      "3.14159".data.length + ("3.14159".data.length - 2) / 5 := by
  decide

/-- `l[i]?` succeeds with `a` exactly when `i` is in range and the
element there (read with any default) is `a`. -/
theorem getElem?_some_iff (l : List Char) (i : Nat) (a : Char) :
    l[i]? = some a ↔ (i < l.length ∧ l.getD i ' ' = a) := by
  rw [List.getD_eq_getElem?_getD]
  constructor
  · intro h
    have hlt : i < l.length := by
      by_contra hge
      rw [List.getElem?_eq_none (by omega)] at h
      exact Option.noConfusion h
    exact ⟨hlt, by rw [h]; rfl⟩
  · rintro ⟨hlt, hd⟩
    rw [List.getElem?_eq_getElem hlt] at *
    simpa using hd

/-- The differ loop, described positionally: it emits, for each indexed
candidate character, the spacing prefix and then the character (marked
when it does not match the reference), and it counts the mismatches. -/
theorem color_your_pi_aux_spec (pi : List Char) (cb : Bool) (l : List Char) :
    ∀ i : Nat, color_your_pi_aux pi cb i l =
      ((l.enumFrom i).flatMap (fun q =>
        (if 1 < q.1 ∧ (q.1 - 2) % 5 = 0 then [' '] else []) ++
          (if pi[q.1]? = some q.2 then [q.2] else mark cb q.2)),
       (l.enumFrom i).countP (fun q => decide (¬ pi[q.1]? = some q.2))) := by
  induction l with
  | nil => intro i; rfl
  | cons c rest ih =>
    intro i
    rw [List.enumFrom_cons, List.flatMap_cons, List.countP_cons]
    simp only [color_your_pi_aux]
    cases hq : pi[i]? with
    | some p =>
      by_cases hc : c = p
      · subst hc
        have hcond : pi[i]? = some c := hq
        simp [ih (i + 1), hcond]
      · have hpc : p ≠ c := fun h => hc h.symm
        have hcond : ¬ pi[i]? = some c := by
          rw [hq]; intro h; exact hc (Option.some.inj h).symm
        simp [hc, hpc, ih (i + 1), hcond, List.append_assoc]
    | none =>
      have hcond : ¬ pi[i]? = some c := by
        rw [hq]; intro h; exact Option.noConfusion h
      simp [ih (i + 1), hcond, List.append_assoc]

/-- Claim C5: the differ marks position `i` as an error exactly when `i`
is past the end of the reference or the characters differ; the marked
character is wrapped in underline markup in colorblind mode and red
markup otherwise; the error count is the number of such positions; and
rendering the reference against itself yields zero errors and no escape
characters in the output. -/
theorem color_your_pi_spec (c r : List Char) (cb : Bool) (hr : ∀ x ∈ r, x ≠ ESC) :
    (color_your_pi c r cb).2 =
      c.enum.countP (fun q =>
        decide (r.length ≤ q.1) || decide (¬ r.getD q.1 ' ' = q.2)) ∧
    (color_your_pi c r cb).1 =
      c.enum.flatMap (fun q =>
        (if 1 < q.1 ∧ (q.1 - 2) % 5 = 0 then [' '] else []) ++
          (if q.1 < r.length ∧ r.getD q.1 ' ' = q.2 then [q.2]
           else if cb then underlineOn ++ q.2 :: colorOff
           else redOn ++ q.2 :: colorOff)) ∧
    (color_your_pi r r cb).2 = 0 ∧
    ESC ∉ (color_your_pi r r cb).1 := by
  have hpred : (fun q : Nat × Char => decide (¬ r[q.1]? = some q.2)) =
      (fun q : Nat × Char =>
        decide (r.length ≤ q.1) || decide (¬ r.getD q.1 ' ' = q.2)) := by
    funext q
    rw [← Bool.decide_or]
    apply decide_eq_decide.mpr
    rw [getElem?_some_iff]
    rw [Decidable.not_and_iff_or_not, Nat.not_lt]
  have hfun : (fun q : Nat × Char =>
      (if 1 < q.1 ∧ (q.1 - 2) % 5 = 0 then [' '] else []) ++
        (if r[q.1]? = some q.2 then [q.2] else mark cb q.2)) =
      (fun q : Nat × Char =>
        (if 1 < q.1 ∧ (q.1 - 2) % 5 = 0 then [' '] else []) ++
          (if q.1 < r.length ∧ r.getD q.1 ' ' = q.2 then [q.2]
           else if cb then underlineOn ++ q.2 :: colorOff
           else redOn ++ q.2 :: colorOff)) := by
    funext q
    congr 1
    rw [if_congr (getElem?_some_iff r q.1 q.2) rfl rfl]
    simp [mark]
  have keyc := color_your_pi_aux_spec r cb c 0
  have keyr := color_your_pi_aux_spec r cb r 0
  have hself : ∀ q ∈ r.enumFrom 0, r[q.1]? = some q.2 := by
    rintro ⟨i, x⟩ hmem
    obtain ⟨-, hlt, hx⟩ := List.mem_enumFrom hmem
    rw [List.getElem?_eq_getElem (by omega)]
    simpa using hx.symm
  refine ⟨?_, ?_, ?_, ?_⟩
  · rw [List.enum_eq_enumFrom, ← hpred]
    exact congrArg Prod.snd keyc
  · rw [List.enum_eq_enumFrom, ← hfun]
    exact congrArg Prod.fst keyc
  · rw [show (color_your_pi r r cb).2 =
        (r.enumFrom 0).countP (fun q => decide (¬ r[q.1]? = some q.2)) from
      congrArg Prod.snd keyr]
    rw [List.countP_eq_zero]
    intro q hq
    simp [hself q hq]
  · rw [show (color_your_pi r r cb).1 =
        (r.enumFrom 0).flatMap (fun q =>
          (if 1 < q.1 ∧ (q.1 - 2) % 5 = 0 then [' '] else []) ++
            (if r[q.1]? = some q.2 then [q.2] else mark cb q.2)) from
      congrArg Prod.fst keyr]
    rw [List.mem_flatMap]
    rintro ⟨⟨i, x⟩, hmem, hin⟩
    rw [if_pos (hself ⟨i, x⟩ hmem)] at hin
    rcases List.mem_append.mp hin with hsp | hx
    · by_cases hcnd : 1 < i ∧ (i - 2) % 5 = 0
      · rw [if_pos hcnd] at hsp
        have h1 : ESC = ' ' := List.mem_singleton.mp hsp
        exact absurd h1 (by decide)
      · rw [if_neg hcnd] at hsp
        exact (List.not_mem_nil ESC) hsp
    · have hesc : ESC = x := List.mem_singleton.mp hx
      obtain ⟨-, hlt, hxval⟩ := List.mem_enumFrom hmem
      have hxmem : x ∈ r := by
        rw [hxval]
        exact List.getElem_mem _
      exact hr x hxmem hesc.symm

/-- Witness for claim C5: the characterisation applied to the concrete
candidate "3.15" against the reference "3.14" (one mismatch). -/
theorem color_your_pi_spec_witness :
    (color_your_pi ['3', '.', '1', '5'] ['3', '.', '1', '4'] false).2 =
      (['3', '.', '1', '5'] : List Char).enum.countP (fun q =>
        decide ((['3', '.', '1', '4'] : List Char).length ≤ q.1) ||
          decide (¬ (['3', '.', '1', '4'] : List Char).getD q.1 ' ' = q.2)) ∧
    (color_your_pi ['3', '.', '1', '5'] ['3', '.', '1', '4'] false).1 =
      (['3', '.', '1', '5'] : List Char).enum.flatMap (fun q =>
        (if 1 < q.1 ∧ (q.1 - 2) % 5 = 0 then [' '] else []) ++
          (if q.1 < (['3', '.', '1', '4'] : List Char).length ∧
              (['3', '.', '1', '4'] : List Char).getD q.1 ' ' = q.2 then [q.2]
           else if false then underlineOn ++ q.2 :: colorOff
           else redOn ++ q.2 :: colorOff)) ∧
    (color_your_pi ['3', '.', '1', '4'] ['3', '.', '1', '4'] false).2 = 0 ∧
    ESC ∉ (color_your_pi ['3', '.', '1', '4'] ['3', '.', '1', '4'] false).1 :=
  color_your_pi_spec ['3', '.', '1', '5'] ['3', '.', '1', '4'] false (by decide)

/-- Claim C4 (code bug): the differ does NOT apply the same spacing rule
as the formatter.  The formatter inserts spaces only when `i > 2`, the
differ already when `i > 1`, so on the self-match "3.1" the differ emits
"3. 1" (an extra space right after the prefix) while the formatter
yields "3.1": the outputs are not byte-identical. -/
theorem differ_formatter_spacing_bug :
    format_pi_with_spaces "3.1".data = "3.1".data ∧
    (color_your_pi "3.1".data "3.1".data false).1 = "3. 1".data ∧
    (color_your_pi "3.1".data "3.1".data false).2 = 0 ∧
    (color_your_pi "3.1".data "3.1".data false).1 ≠ format_pi_with_spaces "3.1".data := by
  refine ⟨?_, ?_, ?_, ?_⟩ <;> decide

/-- Characters are determined by their numeric value. -/
theorem char_toNat_inj (a b : Char) (h : a.toNat = b.toNat) : a = b :=
  Char.ext (UInt32.ext h)

/-- On NUL-free strings, `strcmp` returns zero exactly on equal
strings. -/
theorem strcmp_eq_zero_iff (a b : List Char) (ha : ∀ c ∈ a, c.toNat ≠ 0)
    (hb : ∀ c ∈ b, c.toNat ≠ 0) : strcmp a b = 0 ↔ a = b := by
  induction a generalizing b with
  | nil =>
    cases b with
    | nil => simp [strcmp]
    | cons y bs =>
      have hy := hb y (List.mem_cons_self y bs)
      simp only [strcmp]
      constructor
      · intro h; exfalso; omega
      · intro h; exact absurd h (by simp)
  | cons x as ih =>
    cases b with
    | nil =>
      have hx := ha x (List.mem_cons_self x as)
      simp only [strcmp]
      constructor
      · intro h; exfalso; omega
      · intro h; exact absurd h (by simp)
    | cons y bs =>
      by_cases hxy : x = y
      · subst hxy
        rw [show strcmp (x :: as) (x :: bs) = strcmp as bs from by simp [strcmp]]
        rw [ih bs (fun c hc => ha c (List.mem_cons_of_mem x hc))
          (fun c hc => hb c (List.mem_cons_of_mem x hc))]
        simp
      · rw [show strcmp (x :: as) (y :: bs) = (x.toNat : Int) - (y.toNat : Int) from by
          simp [strcmp, hxy]]
        constructor
        · intro h
          exfalso
          exact hxy (char_toNat_inj x y (by omega))
        · intro h
          exfalso
          rw [List.cons.injEq] at h
          exact hxy h.1

/-- Claim C3: the verdict is decided by exact full-string equality of
candidate and reference (a correct but shorter prefix is not a match):
in verbose mode equality yields Perfect when `length >= 15` and
WellDone when `length < 15`, inequality yields CanDoBetter; in terse
mode equality yields Match, inequality NoMatch. -/
theorem classify_spec (pi your_pi : List Char) (length : Int)
    (hpi : ∀ c ∈ pi, c.toNat ≠ 0) (hyour : ∀ c ∈ your_pi, c.toNat ≠ 0) :
    (classify true pi your_pi length =
      if pi = your_pi then (if length < 15 then Verdict.WellDone else Verdict.Perfect)
      else Verdict.CanDoBetter) ∧
    (classify false pi your_pi length =
      if pi = your_pi then Verdict.Match else Verdict.NoMatch) ∧
    (List.IsPrefix your_pi pi → your_pi ≠ pi →
      classify false pi your_pi length = Verdict.NoMatch ∧
      classify true pi your_pi length = Verdict.CanDoBetter) := by
  have hiff := strcmp_eq_zero_iff pi your_pi hpi hyour
  by_cases he : pi = your_pi
  · subst he
    have h0 : strcmp pi pi = 0 := hiff.mpr rfl
    exact ⟨by simp [classify, h0], by simp [classify, h0],
      fun _ hne => absurd rfl hne⟩
  · have h0 : ¬ strcmp pi your_pi = 0 := fun h => he (hiff.mp h)
    exact ⟨by simp [classify, h0, he], by simp [classify, h0, he],
      fun _ _ => ⟨by simp [classify, h0], by simp [classify, h0]⟩⟩

/-- Witness for claim C3: the candidate "3.1" is a correct proper prefix
of the reference "3.14" and is classified as NoMatch / CanDoBetter. -/
theorem classify_spec_witness :
    classify false ['3', '.', '1', '4'] ['3', '.', '1'] 2 = Verdict.NoMatch ∧
    classify true ['3', '.', '1', '4'] ['3', '.', '1'] 2 = Verdict.CanDoBetter :=
  (classify_spec ['3', '.', '1', '4'] ['3', '.', '1'] 2 (by decide) (by decide)).2.2
    ⟨['4'], rfl⟩ (by decide)

/-- Claim C1 (amended): for every length in [1, 15] the mature `calc_pi`
returns "3." followed by the first `length` characters of the fixed
table, a string of exactly `length + 2` characters starting with "3.".
(The legacy variant ignores its argument, and for lengths above 15 the
mature variant computes digits at runtime instead of using a table.) -/
theorem calc_pi_table_range_spec (n : Nat) (h1 : 1 ≤ n) (h2 : n ≤ 15) :
    calc_pi n = some ("3.".data ++ pi_digits.take n) ∧
    ("3.".data ++ pi_digits.take n).length = n + 2 ∧
    ("3.".data ++ pi_digits.take n).take 2 = "3.".data := by
  refine ⟨by simp [calc_pi, h2], ?_, ?_⟩
  · have hlen : pi_digits.length = 15 := by decide
    simp [List.length_append, List.length_take, hlen]
    omega
  · rfl

/-- Witness for claim C1: the amended statement evaluated at length 5. -/
theorem calc_pi_table_range_spec_witness :
    calc_pi 5 = some ("3.".data ++ pi_digits.take 5) ∧
    ("3.".data ++ pi_digits.take 5).length = 5 + 2 ∧
    ("3.".data ++ pi_digits.take 5).take 2 = "3.".data :=
  calc_pi_table_range_spec 5 (by decide) (by decide)

/-- Counterexample for claim C1 as stated: the `calc_pi` of src/pigame.c
(cited by the claim) ignores its argument, so at length 1 it returns a
17-character string instead of the required 1 + 2 = 3 characters. -/
theorem calc_pi_claim_counterexample :
    (PigameLegacy.calc_pi 1).length = 17 ∧ (PigameLegacy.calc_pi 1).length ≠ 1 + 2 := by
  refine ⟨by decide, by decide⟩

/-- Dropping leading `p`-characters from a `p`-run followed by a
`p`-stable remainder leaves the remainder. -/
theorem dropWhile_append_of_all (p : Char → Bool) (w r : List Char)
    (hw : w.all p = true) (hr : r.dropWhile p = r) : (w ++ r).dropWhile p = r := by
  induction w with
  | nil => simpa using hr
  | cons a t ih =>
    rw [List.all_cons, Bool.and_eq_true] at hw
    rw [List.cons_append, List.dropWhile_cons, if_pos hw.1]
    exact ih hw.2

/-- A digit character is not a whitespace character. -/
theorem isdigit_not_space (c : Char) (h : isdigitC c = true) : isspaceC c = false := by
  by_contra hsp
  rw [Bool.not_eq_false] at hsp
  simp only [isspaceC, Bool.or_eq_true, decide_eq_true_eq] at hsp
  rcases hsp with ((((h1 | h1) | h1) | h1) | h1) | h1 <;> subst h1 <;>
    exact absurd h (by decide)

/-- A digit character is not a sign character. -/
theorem isdigit_not_sign (c : Char) (h : isdigitC c = true) : c ≠ '-' ∧ c ≠ '+' := by
  constructor <;> intro h1 <;> subst h1 <;> exact absurd h (by decide)

/-- Evaluation of the `strtol` model on a decomposed input: optional
whitespace, then an optional sign, then a non-empty digit run, consumed
completely, yields the literal's signed value and an empty remainder. -/
theorem strtol10_eval (w sgn ds : List Char) (hw : w.all isspaceC = true)
    (hsgn : sgn = [] ∨ sgn = ['+'] ∨ sgn = ['-']) (hne : ds ≠ [])
    (hds : ds.all isdigitC = true) :
    strtol10 (w ++ sgn ++ ds) = (litVal sgn ds, []) := by
  obtain ⟨d, ds2, rfl⟩ : ∃ d ds2, ds = d :: ds2 := by
    cases ds with
    | nil => exact absurd rfl hne
    | cons d t => exact ⟨d, t, rfl⟩
  have hd : isdigitC d = true := List.all_eq_true.mp hds d (List.mem_cons_self d ds2)
  have htake : (d :: ds2).takeWhile isdigitC = d :: ds2 :=
    List.takeWhile_eq_self_iff.mpr (List.all_eq_true.mp hds)
  have hdrop2 : (d :: ds2).dropWhile isdigitC = [] :=
    List.dropWhile_eq_nil_iff.mpr (List.all_eq_true.mp hds)
  have hnospace : (d :: ds2).dropWhile isspaceC = d :: ds2 := by
    rw [List.dropWhile_cons]
    simp [isdigit_not_space d hd]
  rcases hsgn with rfl | rfl | rfl
  · have hskip : strtolSkipWs (w ++ (d :: ds2)) = d :: ds2 :=
      dropWhile_append_of_all _ w _ hw hnospace
    have hsign : strtolAfterSign (d :: ds2) = d :: ds2 := by
      simp [strtolAfterSign, (isdigit_not_sign d hd).1, (isdigit_not_sign d hd).2]
    have hneg : strtolNeg (d :: ds2) = false := by
      simp [strtolNeg, (isdigit_not_sign d hd).1]
    simp only [List.append_nil]
    simp [strtol10, hskip, hsign, htake, hneg, hdrop2, litVal]
  · have hnospace2 : ('+' :: d :: ds2).dropWhile isspaceC = '+' :: d :: ds2 := by
      rw [List.dropWhile_cons, if_neg (by decide)]
    have hskip : strtolSkipWs (w ++ ('+' :: d :: ds2)) = '+' :: d :: ds2 :=
      dropWhile_append_of_all _ w _ hw hnospace2
    have hsign : strtolAfterSign ('+' :: d :: ds2) = d :: ds2 := by
      simp [strtolAfterSign]
    have hneg : strtolNeg ('+' :: d :: ds2) = false := by
      simp [strtolNeg]
    rw [List.append_assoc, List.singleton_append]
    simp [strtol10, hskip, hsign, htake, hneg, hdrop2, litVal]
  · have hnospace2 : ('-' :: d :: ds2).dropWhile isspaceC = '-' :: d :: ds2 := by
      rw [List.dropWhile_cons, if_neg (by decide)]
    have hskip : strtolSkipWs (w ++ ('-' :: d :: ds2)) = '-' :: d :: ds2 :=
      dropWhile_append_of_all _ w _ hw hnospace2
    have hsign : strtolAfterSign ('-' :: d :: ds2) = d :: ds2 := by
      simp [strtolAfterSign]
    have hneg : strtolNeg ('-' :: d :: ds2) = true := by
      simp [strtolNeg]
    rw [List.append_assoc, List.singleton_append]
    simp [strtol10, hskip, hsign, htake, hneg, hdrop2, litVal]

/-- Acceptance half of `length_validation`: a whitespace/sign/digit
decomposition is accepted, returning its value when the value is in
`[1, MAX_LENGTH]` and -1 otherwise. -/
theorem length_validation_accepts :
    ∀ w sgn ds : List Char, w.all isspaceC = true →
      (sgn = [] ∨ sgn = ['+'] ∨ sgn = ['-']) → ds ≠ [] → ds.all isdigitC = true →
      length_validation (w ++ sgn ++ ds) =
        (if 0 < litVal sgn ds ∧ litVal sgn ds ≤ (MAX_LENGTH : Int)
         then litVal sgn ds else -1) := by
  intro w sgn ds hw hsgn hne hds
  have hev := strtol10_eval w sgn ds hw hsgn hne hds
  simp only [length_validation, hev]
  have hcond : (([] : List Char) ≠ [] ∨ litVal sgn ds ≤ 0 ∨
      (MAX_LENGTH : Int) < litVal sgn ds) ↔
      (litVal sgn ds ≤ 0 ∨ (MAX_LENGTH : Int) < litVal sgn ds) := by
    simp
  rw [if_congr hcond rfl rfl]
  by_cases hin : 0 < litVal sgn ds ∧ litVal sgn ds ≤ (MAX_LENGTH : Int)
  · have hA : ¬ (litVal sgn ds ≤ 0 ∨ (MAX_LENGTH : Int) < litVal sgn ds) := by
      push_neg
      exact ⟨by omega, hin.2⟩
    rw [if_neg hA, if_pos hin]
  · have hA : litVal sgn ds ≤ 0 ∨ (MAX_LENGTH : Int) < litVal sgn ds := by
      rcases Decidable.not_and_iff_or_not.mp hin with h | h
      · left; omega
      · right; omega
    rw [if_pos hA, if_neg hin]

/-- The first character surviving `dropWhile` falsifies the predicate. -/
theorem dropWhile_head_false (p : Char → Bool) (s : List Char) (c : Char) (t : List Char)
    (h : s.dropWhile p = c :: t) : p c = false := by
  induction s with
  | nil => exact absurd h (by simp)
  | cons a s2 ih =>
    rw [List.dropWhile_cons] at h
    by_cases hpa : p a = true
    · rw [if_pos hpa] at h
      exact ih h
    · rw [if_neg hpa] at h
      rw [(List.cons.injEq a s2 c t).mp h |>.1] at hpa
      exact Bool.not_eq_true _ |>.mp hpa

/-- Rejection half of `length_validation`: an input that admits no
whitespace/sign/digit decomposition is rejected with -1. -/
theorem length_validation_rejects :
    ∀ s : List Char,
      (¬ ∃ w sgn ds : List Char, s = w ++ sgn ++ ds ∧ w.all isspaceC = true ∧
        (sgn = [] ∨ sgn = ['+'] ∨ sgn = ['-']) ∧ ds ≠ [] ∧ ds.all isdigitC = true) →
      length_validation s = -1 := by
  intro s hnot
  have hwall : (s.takeWhile isspaceC).all isspaceC = true := by
    rw [List.all_eq_true]
    intro x hx
    exact List.mem_takeWhile_imp hx
  cases hr : s.dropWhile isspaceC with
  | nil =>
    have h1 : strtol10 s = (0, s) := by
      simp [strtol10, strtolSkipWs, hr, strtolAfterSign]
    simp [length_validation, h1]
  | cons c t =>
    by_cases hplus : c = '+'
    · subst hplus
      cases hds0 : t.takeWhile isdigitC with
      | nil =>
        have h1 : strtol10 s = (0, s) := by
          simp [strtol10, strtolSkipWs, hr, strtolAfterSign, hds0]
        simp [length_validation, h1]
      | cons d ds2 =>
        cases hdp : t.dropWhile isdigitC with
        | cons e es =>
          have h1 : (strtol10 s).2 = e :: es := by
            simp [strtol10, strtolSkipWs, hr, strtolAfterSign, hds0, hdp]
          simp [length_validation, h1]
        | nil =>
          exfalso
          apply hnot
          have ht : t.takeWhile isdigitC = t := by
            have h2 := List.takeWhile_append_dropWhile (p := isdigitC) (l := t)
            rw [hdp, List.append_nil] at h2
            exact h2
          refine ⟨s.takeWhile isspaceC, ['+'], t, ?_, hwall, Or.inr (Or.inl rfl), ?_, ?_⟩
          · rw [List.append_assoc, List.singleton_append, ← hr,
              List.takeWhile_append_dropWhile]
          · intro h0
            rw [h0] at hds0
            exact absurd hds0 (by simp)
          · rw [List.all_eq_true]
            intro x hx
            rw [← ht] at hx
            exact List.mem_takeWhile_imp hx
    · by_cases hminus : c = '-'
      · subst hminus
        cases hds0 : t.takeWhile isdigitC with
        | nil =>
          have h1 : strtol10 s = (0, s) := by
            simp [strtol10, strtolSkipWs, hr, strtolAfterSign, hds0]
          simp [length_validation, h1]
        | cons d ds2 =>
          cases hdp : t.dropWhile isdigitC with
          | cons e es =>
            have h1 : (strtol10 s).2 = e :: es := by
              simp [strtol10, strtolSkipWs, hr, strtolAfterSign, hds0, hdp]
            simp [length_validation, h1]
          | nil =>
            exfalso
            apply hnot
            have ht : t.takeWhile isdigitC = t := by
              have h2 := List.takeWhile_append_dropWhile (p := isdigitC) (l := t)
              rw [hdp, List.append_nil] at h2
              exact h2
            refine ⟨s.takeWhile isspaceC, ['-'], t, ?_, hwall, Or.inr (Or.inr rfl), ?_, ?_⟩
            · rw [List.append_assoc, List.singleton_append, ← hr,
                List.takeWhile_append_dropWhile]
            · intro h0
              rw [h0] at hds0
              exact absurd hds0 (by simp)
            · rw [List.all_eq_true]
              intro x hx
              rw [← ht] at hx
              exact List.mem_takeWhile_imp hx
      · have hsign : strtolAfterSign (c :: t) = c :: t := by
          simp [strtolAfterSign, hplus, hminus]
        cases hds0 : (c :: t).takeWhile isdigitC with
        | nil =>
          have h1 : strtol10 s = (0, s) := by
            simp [strtol10, strtolSkipWs, hr, hsign, hds0]
          simp [length_validation, h1]
        | cons d ds2 =>
          cases hdp : (c :: t).dropWhile isdigitC with
          | cons e es =>
            have h1 : (strtol10 s).2 = e :: es := by
              simp [strtol10, strtolSkipWs, hr, hsign, hds0, hdp]
            simp [length_validation, h1]
          | nil =>
            exfalso
            apply hnot
            have ht : (c :: t).takeWhile isdigitC = c :: t := by
              have h2 := List.takeWhile_append_dropWhile (p := isdigitC) (l := c :: t)
              rw [hdp, List.append_nil] at h2
              exact h2
            refine ⟨s.takeWhile isspaceC, [], c :: t, ?_, hwall, Or.inl rfl, by simp, ?_⟩
            · rw [List.append_nil, ← hr, List.takeWhile_append_dropWhile]
            · rw [List.all_eq_true]
              intro x hx
              rw [← ht] at hx
              exact List.mem_takeWhile_imp hx

/-- Claim C7 (amended): `length_validation` fails with -1 exactly when
the input is not of the form optional whitespace, optional single sign,
then a non-empty digit run consumed completely, with signed value in
`[1, MAX_LENGTH]`; on such a form it returns the value.  In particular
"0", "-5", "abc" and "99999" all fail.  (The spec's "pure base-10
integer literal" misses that `strtol` skips leading whitespace, see the
counterexample.) -/
theorem length_validation_spec :
    (∀ w sgn ds : List Char, w.all isspaceC = true →
      (sgn = [] ∨ sgn = ['+'] ∨ sgn = ['-']) → ds ≠ [] → ds.all isdigitC = true →
      length_validation (w ++ sgn ++ ds) =
        (if 0 < litVal sgn ds ∧ litVal sgn ds ≤ (MAX_LENGTH : Int)
         then litVal sgn ds else -1)) ∧
    (∀ s : List Char,
      (¬ ∃ w sgn ds : List Char, s = w ++ sgn ++ ds ∧ w.all isspaceC = true ∧
        (sgn = [] ∨ sgn = ['+'] ∨ sgn = ['-']) ∧ ds ≠ [] ∧ ds.all isdigitC = true) →
      length_validation s = -1) ∧
    length_validation "0".data = -1 ∧
    length_validation "-5".data = -1 ∧
    length_validation "abc".data = -1 ∧
    length_validation "99999".data = -1 :=
  ⟨length_validation_accepts, length_validation_rejects,
    by decide, by decide, by decide, by decide⟩

/-- Witness for claim C7: the acceptance half applied to the concrete
input " +42" (one space, a sign, two digits). -/
theorem length_validation_spec_witness :
    length_validation ([' '] ++ ['+'] ++ ['4', '2']) =
      (if 0 < litVal ['+'] ['4', '2'] ∧ litVal ['+'] ['4', '2'] ≤ (MAX_LENGTH : Int)
       then litVal ['+'] ['4', '2'] else -1) :=
  length_validation_spec.1 [' '] ['+'] ['4', '2'] (by decide)
    (Or.inr (Or.inl rfl)) (by decide) (by decide)

/-- Counterexample for claim C7 as stated: " 42" is not a pure base-10
integer literal (it starts with a space), yet `length_validation`
accepts it and returns 42, because `strtol` skips leading whitespace. -/
theorem length_validation_ws_counterexample :
    pureIntLiteral [' ', '4', '2'] = false ∧
    length_validation [' ', '4', '2'] = 42 ∧
    length_validation [' ', '4', '2'] ≠ -1 := by
  refine ⟨by decide, by decide, by decide⟩

/-- Claim C9 (amended): there is no `-h` flag in the option string
"vp:Vc", so an invocation with `-h` is an unrecognized-option error:
`getopt` yields `'?'`, the switch falls through to `default:`, and
`usage` prints to standard error and exits 1 — the same terminating
behaviour as every other malformed flag. -/
theorem dash_h_spec :
    switch_dispatch (getopt_result 'h') = some usage ∧
    usage = ⟨OutStream.stderr, 1⟩ ∧
    (∀ c : Char, c ∉ optstringChars → switch_dispatch (getopt_result c) = some usage) := by
  refine ⟨by decide, rfl, ?_⟩
  intro c hc
  rw [getopt_result, if_neg hc]
  decide

/-- Witness for claim C9: the unrecognized flag 'x' terminates through
`usage`. -/
theorem dash_h_spec_witness :
    switch_dispatch (getopt_result 'x') = some usage :=
  dash_h_spec.2.2 'x' (by decide)

/-- Counterexample for claim C9 as stated: `-h` does not print usage to
standard output with exit code 0; it terminates with the usage error
effect (standard error, exit code 1). -/
theorem dash_h_counterexample :
    switch_dispatch (getopt_result 'h') = some ⟨OutStream.stderr, 1⟩ ∧
    switch_dispatch (getopt_result 'h') ≠ some ⟨OutStream.stdout, 0⟩ := by
  refine ⟨by decide, by decide⟩

end Pigame
